import Mathlib

/-!
Verification of the PokerStars hand-history converter
(`src/pokerstars_to_phh.py` and `backend/convert_all.py`).

The raw programs work line-by-line over the text of one hand chunk,
classifying each line with regular expressions.  The shallow embedding
represents a raw line by the outcome of that classification (`Line`),
and translates the three components under claim:

* `computeNetChangesE`  — `convert_all.compute_net_changes`
* `parseHand` and the serializer pieces — `PokerStarsToPhhConverter`
* `processChunk` / `applyDeltas` — the driver loop in `convert_all.main`

Python dicts are embedded as association lists with first-match lookup
and in-place update (`dGet` / `dSet`), which reproduces dict semantics
including insertion order.  Where the Python code can raise `KeyError`
(in `compute_net_changes`, a `+=`/`-=` on a missing key, or the street
fold reading a key absent from `committed`), the embedding returns
`Except.error ()`, matching the `try/except` handling in the driver.
-/

namespace PokerHH

/-- The action-kind classification produced by the regex branches of
`parse_action` (src/pokerstars_to_phh.py lines 109-174).  Each payload is
the number the corresponding regex extracts (`\d+` groups, hence `Nat`).
For `raiseTo`, the line `X: raises I to T` carries the increment `I`
(group 2) and the street total `T` (group 3); both the parser and the
net-change calculator use only the total `T`. -/
inductive ActKind where
  | post_sb (amt : Nat)
  | post_bb (amt : Nat)
  | fold
  | check
  | call (amt : Nat)
  | bet (amt : Nat)
  | raiseTo (inc : Nat) (total : Nat)
  deriving DecidableEq

/-- One raw line of a hand chunk, represented by its regex classification.
Constructors carry exactly the fields the source's regexes extract:

* `header`: a line starting with `PokerStars Hand`; `hid` is the group of
  `Hand #(\d+):` when it matches, `blinds` the groups of `\((\d+)/(\d+)\)`.
* `tableLine`: a line containing `is the button` (in the corpus this is the
  `Table '...'` line); `table` is the group of `Table '([^']+)'` when
  present, `btn` the group of `Seat #(\d+) is the button` when it matches.
* `seatLine`: a line matching `Seat (\d+): (\w+) \((\d+) in chips\)`.
* `dealt`: `Dealt to (\w+) \[([^\]]+)\]`, cards split on whitespace.
* `flopMarker`/`turnMarker`/`riverMarker`: a line starting with
  `*** FLOP ***` etc.; `groups` lists every `\[([^\]]+)\]` bracket group
  in order, each split into card tokens.
* `summaryMarker`: a line starting with `*** SUMMARY ***`.
* `action`: a line with a colon matching one of the action regexes;
  `allin` records an `and is all-in` suffix.
* `uncalled`: `Uncalled bet \((\d+)\) returned to (\w+)`.
* `collected`: a line `NAME collected AMT from pot`; the amount token
  `AMT` is represented as its leading integer `intPart` and, when the
  token is fractional, the digit string after the dot (`frac`).
* `totalPot`: `Total pot (\d+)(?:\.0)? | Rake (\d+)` (summary section).
* `boardLine`: a line starting with `Board` with a bracket group; `cards`
  is the first group split into tokens.
* `blank`: an empty line after stripping.
* `other`: any line matching none of the above (ignored everywhere). -/
inductive Line where
  | header (hid : Option String) (blinds : Option (Nat × Nat))
  | tableLine (table : Option String) (btn : Option Nat)
  | seatLine (seat : Nat) (name : String) (stack : Nat)
  | dealt (name : String) (cards : List String)
  | holeMarker
  | flopMarker (groups : List (List String))
  | turnMarker (groups : List (List String))
  | riverMarker (groups : List (List String))
  | summaryMarker
  | action (name : String) (kind : ActKind) (allin : Bool)
  | uncalled (amt : Nat) (name : String)
  | collected (name : String) (intPart : Nat) (frac : Option String)
  | totalPot (pot : Nat) (rake : Nat)
  | boardLine (cards : List String)
  | blank
  | other
  deriving DecidableEq

/-! ### Association-list model of Python dicts -/

/-- Lookup in a Python dict embedded as an association list. -/
def dGet {α : Type} : List (String × α) → String → Option α
  | [], _ => none
  | (k, v) :: m, n => if k = n then some v else dGet m n

/-- Assignment `d[k] = v` on a Python dict: update in place when the key
exists, append otherwise (preserving insertion order). -/
def dSet {α : Type} : List (String × α) → String → α → List (String × α)
  | [], n, v => [(n, v)]
  | (k, w) :: m, n, v => if k = n then (k, v) :: m else (k, w) :: dSet m n v

/-- The keys of an embedded dict, in insertion order. -/
def keysOf {α : Type} (m : List (String × α)) : List String := m.map (·.1)

/-! ### Net-chip-change calculator (`compute_net_changes`) -/

/-- Player names collected by `compute_net_changes` lines 26-30: the
group of `Seat \d+: (\w+) \(\d+ in chips\)` for every seat line. -/
def seatedPlayers (lines : List Line) : List String :=
  lines.filterMap (fun l => match l with
    | .seatLine _ n _ => some n
    | _ => none)

/-- `{name: 0 for name in players}` — dict comprehension over the player
list (duplicate names collapse, as in Python). -/
def initDict (names : List String) : List (String × Int) :=
  names.foldl (fun m n => dSet m n 0) []

/-- The lines the two accounting passes actually process: everything
before the first `*** SUMMARY ***` marker (the source sets `in_summary`
and skips, resp. breaks, from that line on). -/
def beforeSummary (lines : List Line) : List Line :=
  lines.takeWhile (fun l => l ≠ Line.summaryMarker)

/-- Street-transition test of lines 49-50 of `convert_all.py`. -/
def isStreetMarker : Line → Bool
  | .flopMarker _ => true
  | .turnMarker _ => true
  | .riverMarker _ => true
  | _ => false

/-- Accumulator state of the betting pass: `committed` (lifetime) and
`bets` (per-street) dicts, as in `compute_net_changes` lines 32-34. -/
structure NetAcc where
  committed : List (String × Int)
  bets : List (String × Int)
  deriving DecidableEq

/-- `for name in street_bets: committed[name] += street_bets[name]` —
errors (KeyError) when a street-bets key is absent from `committed`. -/
def foldStreet : List (String × Int) → List (String × Int) → Except Unit (List (String × Int))
  | [], committed => .ok committed
  | (n, v) :: rest, committed =>
    match dGet committed n with
    | some c => foldStreet rest (dSet committed n (c + v))
    | none => .error ()

/-- Street-transition body of the betting loop (`compute_net_changes`
lines 48-54): fold every per-street bet into `committed` (KeyError when
a bets key is not a seated player), then zero every per-street bet. -/
def netMarkerFold (s : NetAcc) : Except Unit NetAcc :=
  match foldStreet s.bets s.committed with
  | .ok c => .ok ⟨c, s.bets.map (fun p => (p.1, (0 : Int)))⟩
  | .error e => .error e

/-- One iteration of the betting loop of `compute_net_changes`
(lines 37-90): street markers fold the per-street bets into `committed`
and zero them; blind posts, bets and raises assign the per-street bet;
calls add to it (KeyError when the key is missing); an uncalled-bet
return subtracts (KeyError when missing); all other lines are ignored. -/
def netStepE (s : NetAcc) (l : Line) : Except Unit NetAcc :=
  match l with
  | .flopMarker _ => netMarkerFold s
  | .turnMarker _ => netMarkerFold s
  | .riverMarker _ => netMarkerFold s
  | .action n k _ =>
    match k with
    | .post_sb a => .ok ⟨s.committed, dSet s.bets n (a : Int)⟩
    | .post_bb a => .ok ⟨s.committed, dSet s.bets n (a : Int)⟩
    | .bet a => .ok ⟨s.committed, dSet s.bets n (a : Int)⟩
    | .raiseTo _ t => .ok ⟨s.committed, dSet s.bets n (t : Int)⟩
    | .call a =>
      match dGet s.bets n with
      | some v => .ok ⟨s.committed, dSet s.bets n (v + (a : Int))⟩
      | none => .error ()
    | _ => .ok s
  | .uncalled a n =>
    match dGet s.bets n with
    | some v => .ok ⟨s.committed, dSet s.bets n (v - (a : Int))⟩
    | none => .error ()
  | _ => .ok s

/-- The betting loop over a list of lines, propagating the exception. -/
def netRunE : NetAcc → List Line → Except Unit NetAcc
  | s, [] => .ok s
  | s, l :: ls =>
    match netStepE s l with
    | .ok s1 => netRunE s1 ls
    | .error e => .error e

/-- Amount credited by the winnings regex
`(\w+) collected (\d+)(?:\.0)? from pot` applied to a line
`NAME collected AMT from pot`: when the amount token `AMT` is the integer
`i`, or `i` followed by the literal fraction `.0`, the regex matches and
yields `i`; for any other fractional token (`.5`, `.00`, `.05`, ...) no
position of the line matches the pattern, so nothing is credited. -/
def collectedCredit (intPart : Nat) (frac : Option String) : Option Nat :=
  match frac with
  | none => some intPart
  | some f => if f = "0" then some intPart else none

/-- One iteration of the winnings loop (`compute_net_changes` lines
96-105): `winnings[name] += int(amount)` when the collected regex
matches (KeyError when the name is not a seated player). -/
def winStepE (w : List (String × Int)) (l : Line) : Except Unit (List (String × Int)) :=
  match l with
  | .collected n i f =>
    match collectedCredit i f with
    | some a =>
      match dGet w n with
      | some v => .ok (dSet w n (v + (a : Int)))
      | none => .error ()
    | none => .ok w
  | _ => .ok w

/-- The winnings loop over a list of lines. -/
def winRunE : List (String × Int) → List Line → Except Unit (List (String × Int))
  | w, [] => .ok w
  | w, l :: ls =>
    match winStepE w l with
    | .ok w1 => winRunE w1 ls
    | .error e => .error e

/-- `compute_net_changes` (convert_all.py lines 20-107): runs the betting
pass over the lines before the summary marker, folds the final street
into `committed`, runs the winnings pass, and returns the dict
`{name: winnings[name] - committed[name] for name in players}`.
Both lookups are total here (`getD 0`); the initial dicts give every
seated player a key and no operation removes keys, so the default is
never consulted on the success path. -/
def computeNetChangesE (lines : List Line) : Except Unit (List (String × Int)) :=
  match netRunE ⟨initDict (seatedPlayers lines), initDict (seatedPlayers lines)⟩
          (beforeSummary lines) with
  | .error e => .error e
  | .ok s1 =>
    match foldStreet s1.bets s1.committed with
    | .error e => .error e
    | .ok c =>
      match winRunE (initDict (seatedPlayers lines)) (beforeSummary lines) with
      | .error e => .error e
      | .ok w =>
        .ok ((seatedPlayers lines).foldl
          (fun m n => dSet m n ((dGet w n).getD 0 - (dGet c n).getD 0)) [])

/-! ### Specification-side model of the calculator (claim C1's words)

A second definition, written from the specification's description rather
than the source: a per-street bet function updated by overwrite
(blind post / bet / raise-to-total), addition (call) and subtraction
(uncalled return); folded into a lifetime committed total at every
street marker and once more at end of hand; the net delta of a player is
winnings minus lifetime committed. -/

/-- Pointwise update of a total function. -/
def upd (f : String → Int) (k : String) (v : Int) : String → Int :=
  fun n => if n = k then v else f n

/-- Spec wording: per-street bet update rules for a single line.
Posts, bets and raises (with the `to` total) overwrite, calls add,
an uncalled-bet return subtracts; other lines leave the bets alone. -/
def specBetUpd (b : String → Int) : Line → (String → Int)
  | .action n k _ =>
    match k with
    | .post_sb a => upd b n (a : Int)
    | .post_bb a => upd b n (a : Int)
    | .bet a => upd b n (a : Int)
    | .raiseTo _ t => upd b n (t : Int)
    | .call a => upd b n (b n + (a : Int))
    | _ => b
  | .uncalled a n => upd b n (b n - (a : Int))
  | _ => b

/-- Spec wording: the pair (lifetime committed, per-street bet); a street
marker adds the per-street bet into committed and resets it to zero. -/
def specStep (p : (String → Int) × (String → Int)) (l : Line) :
    (String → Int) × (String → Int) :=
  if isStreetMarker l then (fun n => p.1 n + p.2 n, fun _ => 0)
  else (p.1, specBetUpd p.2 l)

/-- Spec wording: lifetime committed total after the end-of-hand fold. -/
def specCommitted (lines : List Line) (n : String) : Int :=
  let p := (beforeSummary lines).foldl specStep (fun _ => 0, fun _ => 0)
  p.1 n + p.2 n

/-- The spec-side winnings step: a matching collected line adds the
credited amount to the named player's winnings. -/
def specWinStep (w : String → Int) (l : Line) : String → Int :=
  match l with
  | .collected m i f =>
    match collectedCredit i f with
    | some a => upd w m (w m + (a : Int))
    | none => w
  | _ => w

/-- Spec wording: winnings summed from the pre-summary collected lines. -/
def specWinnings (lines : List Line) (n : String) : Int :=
  ((beforeSummary lines).foldl specWinStep (fun _ => 0)) n

/-- Spec wording: net delta = winnings − lifetime committed. -/
def specNetDelta (lines : List Line) (n : String) : Int :=
  specWinnings lines n - specCommitted lines n

/-! ### Hand parser (`PokerStarsToPhhConverter`) -/

/-- A player entry, `Player` dataclass of src/pokerstars_to_phh.py. -/
structure Player where
  seat : Nat
  name : String
  starting_stack : Int
  hole_cards : Option (List String) := none
  deriving DecidableEq

/-- A parsed action, `Action` dataclass of src/pokerstars_to_phh.py.
The Python `action_type` string is split into the regex classification
`kind` and the `_allin` suffix flag; `amount` is the optional amount
exactly as `parse_action` stores it. -/
structure Action where
  player : String
  kind : ActKind
  allin : Bool
  amount : Option Int
  deriving DecidableEq

/-- The amount `parse_action` attaches to each classified action:
blind posts, calls and bets carry the literal amount, raises the total
(group 3 of `raises (\d+) to (\d+)`), folds and checks carry none. -/
def actAmount : ActKind → Option Int
  | .post_sb a => some (a : Int)
  | .post_bb a => some (a : Int)
  | .call a => some (a : Int)
  | .bet a => some (a : Int)
  | .raiseTo _ t => some (t : Int)
  | .fold => none
  | .check => none

/-- The streets keying the converter's `actions` dict. -/
inductive Street where
  | preflop | flop | turn | river
  deriving DecidableEq

/-- Converter state after `reset` plus the parsed fields
(src/pokerstars_to_phh.py lines 41-63).  `board_by_street` is split into
its three entries `bbsFlop`/`bbsTurn`/`bbsRiver`, and the `actions` dict
into the four per-street lists. -/
structure Hand where
  players : List Player
  button_seat : Nat
  small_blind : Int
  big_blind : Int
  ante : Int
  preflop : List Action
  flop : List Action
  turn : List Action
  river : List Action
  board : List String
  bbsFlop : List String
  bbsTurn : List String
  bbsRiver : List String
  pot : Int
  rake : Int
  hand_id : String
  deriving DecidableEq

/-- The converter state right after `reset`. -/
def initHand : Hand :=
  { players := [], button_seat := 0, small_blind := 0, big_blind := 0,
    ante := 0, preflop := [], flop := [], turn := [], river := [],
    board := [], bbsFlop := [], bbsTurn := [], bbsRiver := [],
    pot := 0, rake := 0, hand_id := "" }

/-- `self.actions[street].append(action)`. -/
def addAct (h : Hand) (st : Street) (a : Action) : Hand :=
  match st with
  | .preflop => { h with preflop := h.preflop ++ [a] }
  | .flop => { h with flop := h.flop ++ [a] }
  | .turn => { h with turn := h.turn ++ [a] }
  | .river => { h with river := h.river ++ [a] }

/-- `parse_hole_cards`: attach the card pair to the first player with the
given name (the Python loop breaks at the first match). -/
def setHole : List Player → String → List String → List Player
  | [], _, _ => []
  | p :: rest, name, cards =>
    if p.name = name then { p with hole_cards := some cards } :: rest
    else p :: setHole rest name cards

/-- Parser loop state: converter fields plus the `current_street` and
`in_summary` variables of `parse_pokerstars_hand`. -/
structure ParseState where
  hand : Hand
  street : Street
  inSummary : Bool
  deriving DecidableEq

/-- The body of the `parse_pokerstars_hand` line loop
(src/pokerstars_to_phh.py lines 208-262), one line at a time.  Branch
order follows the source: header, button, seat, hole cards, street
markers (which act even in the summary section, as in the source, where
the marker branches are tested before `in_summary`), summary marker,
action lines (only outside the summary), then summary parsing (`Total
pot`/`Board` lines). -/
def parseStep (s : ParseState) (l : Line) : ParseState :=
  match l with
  | .blank => s
  | .header hid bl =>
    let h1 := match hid with
      | some i => { s.hand with hand_id := i }
      | none => s.hand
    let h2 := match bl with
      | some (sb, bb) => { h1 with small_blind := (sb : Int), big_blind := (bb : Int) }
      | none => h1
    { s with hand := h2 }
  | .tableLine _ btn =>
    match btn with
    | some b => { s with hand := { s.hand with button_seat := b } }
    | none => s
  | .seatLine seat name stack =>
    { s with hand := { s.hand with
        players := s.hand.players ++ [{ seat := seat, name := name,
                                        starting_stack := (stack : Int) }] } }
  | .dealt name cards =>
    { s with hand := { s.hand with players := setHole s.hand.players name cards } }
  | .holeMarker => { s with street := .preflop }
  | .flopMarker gs =>
    let cards := gs.headD []
    { s with street := .flop,
             hand := { s.hand with board := s.hand.board ++ cards,
                                   bbsFlop := cards } }
  | .turnMarker gs =>
    let s1 := { s with street := Street.turn }
    if 1 < gs.length then
      let cards := gs.getLastD []
      { s1 with hand := { s1.hand with board := s1.hand.board ++ cards,
                                       bbsTurn := cards } }
    else s1
  | .riverMarker gs =>
    let s1 := { s with street := Street.river }
    if 1 < gs.length then
      let cards := gs.getLastD []
      { s1 with hand := { s1.hand with board := s1.hand.board ++ cards,
                                       bbsRiver := cards } }
    else s1
  | .summaryMarker => { s with inSummary := true }
  | .action n k allin =>
    if s.inSummary then s
    else { s with hand := addAct s.hand s.street
                    { player := n, kind := k, allin := allin, amount := actAmount k } }
  | .uncalled _ _ => s
  | .collected _ _ _ => s
  | .totalPot p r =>
    if s.inSummary then
      { s with hand := { s.hand with pot := (p : Int), rake := (r : Int) } }
    else s
  | .boardLine cards =>
    if s.inSummary then { s with hand := { s.hand with board := cards } }
    else s
  | .other => s

/-- Initial loop state: fresh hand, `current_street = 'preflop'`,
`in_summary = False`. -/
def initState : ParseState := { hand := initHand, street := .preflop, inSummary := false }

/-- `parse_pokerstars_hand`: reset, then run the line loop. -/
def parseHand (lines : List Line) : Hand :=
  (lines.foldl parseStep initState).hand

/-! ### Record serializer pieces (`convert_to_phh`) -/

/-- The Python `action_type` string: regex kind plus `_allin` suffix. -/
def kindStr : ActKind → String
  | .post_sb _ => "post_sb"
  | .post_bb _ => "post_bb"
  | .fold => "fold"
  | .check => "check"
  | .call _ => "call"
  | .bet _ => "bet"
  | .raiseTo _ _ => "raise"

/-- `action_type` as stored on the Python `Action`. -/
def actionTypeStr (k : ActKind) (allin : Bool) : String :=
  kindStr k ++ (match allin with
    | true => "_allin"
    | false => "")

/-- `get_player_index`: index of the first player with the given name
(`none` embeds the Python `-1`). -/
def playerIndex (ps : List Player) (name : String) : Option Nat :=
  ps.findIdx? (fun p => p.name = name)

/-- The `antes` array of the serialized record
(src/pokerstars_to_phh.py lines 279-281): one entry per seated player,
each the hand's ante. -/
def antesOf (h : Hand) : List Int :=
  h.players.map (fun _ => h.ante)

/-- Loop body of the `blinds_or_straddles` computation (lines 288-296):
an action whose `action_type` string is exactly `post_sb` (resp.
`post_bb`) writes the configured small (resp. big) blind at the posting
player's index (when the player is found); anything else is ignored. -/
def blindsStep (h : Hand) (bl : List Int) (a : Action) : List Int :=
  if actionTypeStr a.kind a.allin = "post_sb" then
    match playerIndex h.players a.player with
    | some i => bl.set i h.small_blind
    | none => bl
  else if actionTypeStr a.kind a.allin = "post_bb" then
    match playerIndex h.players a.player with
    | some i => bl.set i h.big_blind
    | none => bl
  else bl

/-- The `blinds_or_straddles` array (lines 283-298): start from all
zeros and process every preflop action with `blindsStep`. -/
def blindsOf (h : Hand) : List Int :=
  h.preflop.foldl (blindsStep h) (List.replicate h.players.length 0)

/-- The preflop action list of the serialized record (lines 342-344):
`[a for a in self.actions['preflop'] if a.action_type not in ['post_sb',
'post_bb']]`. -/
def emittedPreflop (h : Hand) : List Action :=
  h.preflop.filter (fun a =>
    !(["post_sb", "post_bb"].contains (actionTypeStr a.kind a.allin)))

/-- Exact (non-all-in) blind-post test, used to phrase the amended C6. -/
def isExactBlindPost (a : Action) : Bool :=
  (match a.kind with
   | .post_sb _ => true
   | .post_bb _ => true
   | _ => false) && !a.allin

/-- Blind-post test ignoring the all-in qualifier. -/
def isBlindPostKind (a : Action) : Bool :=
  match a.kind with
  | .post_sb _ => true
  | .post_bb _ => true
  | _ => false

/-- Exact small-blind post (no all-in qualifier). -/
def isSBPost (a : Action) : Bool :=
  (match a.kind with
   | .post_sb _ => true
   | _ => false) && !a.allin

/-- Exact big-blind post (no all-in qualifier). -/
def isBBPost (a : Action) : Bool :=
  (match a.kind with
   | .post_bb _ => true
   | _ => false) && !a.allin

/-! ### Conversion driver and session stack ledger (`convert_all.main`) -/

/-- `chunk.startswith('PokerStars Hand')`: the chunk's first line is a
header line. -/
def isHandChunk (chunk : List Line) : Bool :=
  match chunk.head? with
  | some (.header _ _) => true
  | _ => false

/-- `re.search(r'Hand #(\d+):', chunk)` over the whole chunk: the first
header line carrying an id (the id pattern occurs only in header lines
of this format). -/
def extractHandId (chunk : List Line) : Option String :=
  chunk.findSome? (fun l => match l with
    | .header hid _ => hid
    | _ => none)

/-- `extract_session`: first `Table '([^']+)'` match in the chunk,
empty string when absent. -/
def extractSession (chunk : List Line) : String :=
  (chunk.findSome? (fun l => match l with
    | .tableLine (some t) _ => some t
    | _ => none)).getD ""

/-- The ledger-update loop of `convert_all.main` (lines 180-185): for
each net delta, read the running stack (defaulting a missing player to
10000), add the delta, clamp at zero, and store. -/
def applyDeltas (ledger net : List (String × Int)) : List (String × Int) :=
  net.foldl (fun s p => dSet s p.1 (max 0 ((dGet s p.1).getD 10000 + p.2))) ledger

/-- Every running stack in a ledger entry is non-negative. -/
def stacksNonneg (s : List (String × Int)) : Prop := ∀ p ∈ s, 0 ≤ p.2

/-- Driver state for one conversion run: the session ledger, the set of
seen hand ids, the written output files (hand id ↦ serialized hand,
abstracted to the `Hand` record the serializer renders), and the two
counters. -/
structure DriverState where
  sessionStacks : List (String × List (String × Int))
  seenIds : List String
  outputs : List (String × Hand)
  converted : Nat
  skipped : Nat
  deriving DecidableEq

/-- Stack override of `convert_all.main` lines 163-165: players found in
the session's running stacks get their starting stack replaced. -/
def overrideStacks (h : Hand) (ledger : List (String × Int)) : Hand :=
  { h with players := h.players.map (fun p =>
      match dGet ledger p.name with
      | some v => { p with starting_stack := v }
      | none => p) }

/-- Seeding of a session's ledger entry from the parsed players
(`{p.name: p.starting_stack for p in converter.players}`). -/
def seedStacks (h : Hand) : List (String × Int) :=
  h.players.foldl (fun m p => dSet m p.name p.starting_stack) []

/-- The per-chunk body of `convert_all.main` (lines 138-189).  Non-hand
chunks and chunks without an extractable id are skipped; a duplicate
hand id is skipped; otherwise the hand is parsed, its starting stacks
overridden from the session ledger when the session has a non-empty
entry (`if stacks:`), the output written and the converted counter
bumped, and then the ledger updated with the hand's net deltas — seeding
the session from the parsed stacks when it had no entry (`if stacks is
None:`).  A failure inside `compute_net_changes` (the only fallible
step of the embedding) reaches the `except` branch: the output remains
written and the skip counter is bumped. -/
def processChunk (st : DriverState) (chunk : List Line) : DriverState :=
  if isHandChunk chunk = false then { st with skipped := st.skipped + 1 }
  else
    match extractHandId chunk with
    | none => { st with skipped := st.skipped + 1 }
    | some hid =>
      if hid ∈ st.seenIds then { st with skipped := st.skipped + 1 }
      else
        let st1 := { st with seenIds := st.seenIds ++ [hid] }
        let h := parseHand chunk
        let session := extractSession chunk
        let stacksOpt := dGet st1.sessionStacks session
        let h1 := match stacksOpt with
          | some s => if s.isEmpty then h else overrideStacks h s
          | none => h
        let st2 := { st1 with outputs := dSet st1.outputs hid h1,
                              converted := st1.converted + 1 }
        match computeNetChangesE chunk with
        | .error _ => { st2 with skipped := st2.skipped + 1 }
        | .ok net =>
          let base := match stacksOpt with
            | none => seedStacks h1
            | some s => s
          { st2 with sessionStacks := dSet st2.sessionStacks session (applyDeltas base net) }

/-! ### Validity of a hand chunk (for claim C5)

The specification's board invariant quantifies over "valid hand chunks".
`validFrom` spells out, from the specification's description of the
format, what the board-related lines of a valid chunk look like: at most
one marker per street, streets in order, the flop marker revealing three
cards in its (first) bracket group, the turn and river markers listing
the board so far plus exactly one new card in the last bracket group, no
street markers once the summary starts, and any summary `Board` line
restating exactly the accumulated board. -/

/-- Phase of a chunk with respect to its street markers. -/
inductive BoardPhase where
  | pre | afterFlop | afterTurn | afterRiver | summary
  deriving DecidableEq

/-- Validity of the remaining lines, given the current phase and the
board accumulated so far. -/
def validFrom : BoardPhase → List String → List Line → Bool
  | _, _, [] => true
  | ph, bd, l :: ls =>
    match l with
    | .flopMarker gs =>
      decide (ph = .pre) && decide ((gs.headD []).length = 3) &&
        validFrom .afterFlop (bd ++ gs.headD []) ls
    | .turnMarker gs =>
      decide (ph = .afterFlop) && decide (1 < gs.length) &&
        decide ((gs.getLastD []).length = 1) &&
        validFrom .afterTurn (bd ++ gs.getLastD []) ls
    | .riverMarker gs =>
      decide (ph = .afterTurn) && decide (1 < gs.length) &&
        decide ((gs.getLastD []).length = 1) &&
        validFrom .afterRiver (bd ++ gs.getLastD []) ls
    | .summaryMarker => validFrom .summary bd ls
    | .boardLine cs =>
      (decide (ph ≠ BoardPhase.summary) || decide (cs = bd)) && validFrom ph bd ls
    | _ => validFrom ph bd ls

/-- A valid hand chunk: valid from the initial phase with empty board. -/
def validChunk (lines : List Line) : Bool := validFrom .pre [] lines

/-- Street-card length profiles reachable by a (possibly incomplete)
valid hand: no board, flop only, flop+turn, or flop+turn+river. -/
def goodLens (f t r : List String) : Prop :=
  (f = [] ∧ t = [] ∧ r = []) ∨
  (f.length = 3 ∧ t = [] ∧ r = []) ∨
  (f.length = 3 ∧ t.length = 1 ∧ r = []) ∨
  (f.length = 3 ∧ t.length = 1 ∧ r.length = 1)

/-- Per-phase shape of the per-street card lists. -/
def lensOK : BoardPhase → List String → List String → List String → Prop
  | .pre, f, t, r => f = [] ∧ t = [] ∧ r = []
  | .afterFlop, f, t, r => f.length = 3 ∧ t = [] ∧ r = []
  | .afterTurn, f, t, r => f.length = 3 ∧ t.length = 1 ∧ r = []
  | .afterRiver, f, t, r => f.length = 3 ∧ t.length = 1 ∧ r.length = 1
  | .summary, f, t, r => goodLens f t r

/-- The parser-state fields the board invariant depends on. -/
def boardFields (s : ParseState) :
    List String × List String × List String × List String × Bool :=
  (s.hand.board, s.hand.bbsFlop, s.hand.bbsTurn, s.hand.bbsRiver, s.inSummary)

/-- Invariant tying the parser state to the validity phase and the
accumulated board. -/
def phaseInv (ph : BoardPhase) (bd : List String) (s : ParseState) : Prop :=
  s.hand.board = bd ∧
  bd = s.hand.bbsFlop ++ s.hand.bbsTurn ++ s.hand.bbsRiver ∧
  (s.inSummary = true ↔ ph = .summary) ∧
  lensOK ph s.hand.bbsFlop s.hand.bbsTurn s.hand.bbsRiver

/-! ### Concrete inputs -/

/-- The example hand of src/pokerstars_to_phh.py (lines 413-450), as
classified lines: 6 players, blinds 50/100, preflop raise to 210 by
MrPink, call of 160 by MrBlue, checks through flop and turn, river bet
of 230 returned uncalled, MrBlue collects 520.0. -/
def exampleLines : List Line :=
  [ .header (some "100000") (some (50, 100)),
    .tableLine (some "Pluribus Session 100") (some 6),
    .seatLine 1 "MrBlue" 10000,
    .seatLine 2 "MrBlonde" 10000,
    .seatLine 3 "MrWhite" 10000,
    .seatLine 4 "MrPink" 10000,
    .seatLine 5 "MrBrown" 10000,
    .seatLine 6 "Pluribus" 10000,
    .action "MrBlue" (.post_sb 50) false,
    .action "MrBlonde" (.post_bb 100) false,
    .holeMarker,
    .dealt "MrBlue" ["Tc", "Qc"],
    .dealt "MrBlonde" ["8s", "4c"],
    .dealt "MrWhite" ["9c", "3d"],
    .dealt "MrPink" ["Ah", "4h"],
    .dealt "MrBrown" ["Th", "5s"],
    .dealt "Pluribus" ["6c", "7s"],
    .action "MrWhite" .fold false,
    .action "MrPink" (.raiseTo 110 210) false,
    .action "MrBrown" .fold false,
    .action "Pluribus" .fold false,
    .action "MrBlue" (.call 160) false,
    .action "MrBlonde" .fold false,
    .flopMarker [["7d", "5h", "9d"]],
    .action "MrBlue" .check false,
    .action "MrPink" .check false,
    .turnMarker [["7d", "5h", "9d"], ["7c"]],
    .action "MrBlue" .check false,
    .action "MrPink" .check false,
    .riverMarker [["7d", "5h", "9d"], ["7c"], ["Qh"]],
    .action "MrBlue" (.bet 230) false,
    .action "MrPink" .fold false,
    .uncalled 230 "MrBlue",
    .collected "MrBlue" 520 (some "0"),
    .summaryMarker,
    .totalPot 520 0,
    .boardLine ["7d", "5h", "9d", "7c", "Qh"] ]

/-- A chunk whose small blind is posted all-in (`posts small blind 50
and is all-in`), used to refute claim C6 as stated: `parse_action`
classifies it `post_sb_allin`, which the serializer's blind filter
(`not in ['post_sb','post_bb']`) does not exclude and whose poster the
blind-array computation (`== 'post_sb'`) does not record. -/
def cx6Lines : List Line :=
  [ .header (some "999001") (some (50, 100)),
    .tableLine (some "Session X") (some 2),
    .seatLine 1 "Shorty" 40,
    .seatLine 2 "Bigstack" 10000,
    .action "Shorty" (.post_sb 50) true,
    .action "Bigstack" (.post_bb 100) false,
    .holeMarker,
    .action "Bigstack" .check false,
    .summaryMarker,
    .totalPot 100 0 ]

/-- A chunk whose winner line reads `collected 520.5 from pot`, used to
refute claim C9 as stated: the winnings regex matches neither `520.5`
nor any other position of the line, so nothing is credited. -/
def cx9Lines : List Line :=
  [ .header (some "999002") (some (50, 100)),
    .seatLine 1 "P" 1000,
    .collected "P" 520 (some "5"),
    .summaryMarker ]

/-- Refinement relation between the exact dict-based accumulator of the
betting pass and the total-function accumulators of the spec-side model:
`committed`'s keys are exactly the seated players and carry the
spec-side committed values; `bets`'s keys cover the seated players and
every stored value agrees with the spec-side per-street bet. -/
def NetRel (players : List String) (s : NetAcc) (p : (String → Int) × (String → Int)) : Prop :=
  (∀ k, k ∈ keysOf s.committed ↔ k ∈ players) ∧
  (keysOf s.committed).Nodup ∧
  (keysOf s.bets).Nodup ∧
  (∀ k, k ∈ players → k ∈ keysOf s.bets) ∧
  (∀ k v, dGet s.committed k = some v → p.1 k = v) ∧
  (∀ k v, dGet s.bets k = some v → p.2 k = v)

/-- Refinement relation for the winnings pass. -/
def WinRel (players : List String) (w : List (String × Int)) (f : String → Int) : Prop :=
  (∀ k, k ∈ keysOf w ↔ k ∈ players) ∧
  (keysOf w).Nodup ∧
  (∀ k v, dGet w k = some v → f k = v)

/-! ## Lemmas about the dict embedding -/

theorem dGet_dSet_self {α : Type} (m : List (String × α)) (k : String) (v : α) :
    dGet (dSet m k v) k = some v := by
  induction m with
  | nil => simp [dGet, dSet]
  | cons p m ih =>
    obtain ⟨k1, v1⟩ := p
    by_cases h : k1 = k <;> simp [dGet, dSet, h, ih]

theorem dGet_dSet_ne {α : Type} (m : List (String × α)) {k k' : String} (v : α)
    (h : k' ≠ k) : dGet (dSet m k v) k' = dGet m k' := by
  induction m with
  | nil => simp [dGet, dSet, Ne.symm h]
  | cons p m ih =>
    obtain ⟨k1, v1⟩ := p
    by_cases h1 : k1 = k
    · subst h1
      simp [dGet, dSet, Ne.symm h]
    · simp [dGet, dSet, h1, ih]

theorem keysOf_dSet {α : Type} (m : List (String × α)) (k : String) (v : α) :
    keysOf (dSet m k v) = if k ∈ keysOf m then keysOf m else keysOf m ++ [k] := by
  induction m with
  | nil => simp [keysOf, dSet]
  | cons p m ih =>
    obtain ⟨k1, v1⟩ := p
    by_cases h : k1 = k
    · subst h
      simp [keysOf, dSet]
    · have : (k ∈ keysOf ((k1, v1) :: m)) = (k ∈ keysOf m) := by
        simp [keysOf, Ne.symm h]
      simp only [dSet, if_neg h, keysOf, List.map_cons] at ih ⊢
      rw [ih]
      by_cases h2 : k ∈ keysOf m
      · simp [keysOf] at h2
        simp [h2, Ne.symm h]
      · simp [keysOf] at h2
        simp [h2, Ne.symm h]

theorem mem_keysOf {α : Type} (m : List (String × α)) (k : String) :
    k ∈ keysOf m ↔ (dGet m k).isSome := by
  induction m with
  | nil => simp [keysOf, dGet]
  | cons p m ih =>
    obtain ⟨k1, v1⟩ := p
    by_cases h : k1 = k
    · simp [keysOf, dGet, h]
    · rw [keysOf, List.map_cons]
      rw [keysOf] at ih
      simp only [List.mem_cons, dGet, if_neg h]
      constructor
      · rintro (h1 | h1)
        · exact absurd h1.symm h
        · exact ih.1 h1
      · intro h1
        exact Or.inr (ih.2 h1)

theorem nodup_keysOf_dSet {α : Type} (m : List (String × α)) (k : String) (v : α)
    (h : (keysOf m).Nodup) : (keysOf (dSet m k v)).Nodup := by
  rw [keysOf_dSet]
  by_cases h2 : k ∈ keysOf m
  · simpa [h2] using h
  · simp [h2, List.nodup_append, h]

/-! ## Lemmas about the net-change calculator -/

theorem foldStreet_ok {b : List (String × Int)} :
    ∀ {c c' : List (String × Int)}, foldStreet b c = .ok c' →
    (keysOf b).Nodup →
    keysOf c' = keysOf c ∧
    (∀ k, k ∉ keysOf b → dGet c' k = dGet c k) ∧
    (∀ k w, dGet b k = some w → ∃ u, dGet c k = some u ∧ dGet c' k = some (u + w)) := by
  induction b with
  | nil =>
    intro c c' hok _
    simp [foldStreet] at hok
    subst hok
    exact ⟨rfl, fun _ _ => rfl, fun k w hw => by simp [dGet] at hw⟩
  | cons p rest ih =>
    intro c c' hok hnd
    obtain ⟨n, v⟩ := p
    rw [foldStreet] at hok
    cases hc : dGet c n with
    | none => rw [hc] at hok; exact absurd hok (by simp)
    | some u =>
      rw [hc] at hok
      have hnd' : (keysOf rest).Nodup := (List.nodup_cons.mp hnd).2
      have hn : n ∉ keysOf rest := (List.nodup_cons.mp hnd).1
      obtain ⟨hk, hnot, hsome⟩ := ih hok hnd'
      refine ⟨?_, ?_, ?_⟩
      · rw [hk, keysOf_dSet, if_pos ((mem_keysOf c n).mpr (by simp [hc]))]
      · intro k hkmem
        have hne : k ≠ n := fun he => hkmem (by simp [keysOf, he])
        have hmem : k ∉ keysOf rest := fun he => hkmem (by simp [keysOf]; right; simpa [keysOf] using he)
        rw [hnot k hmem, dGet_dSet_ne _ _ hne]
      · intro k w hw
        by_cases he : k = n
        · subst he
          rw [dGet, if_pos rfl] at hw
          injection hw with hw
          subst hw
          refine ⟨u, hc, ?_⟩
          rw [hnot k hn, dGet_dSet_self]
        · rw [dGet, if_neg (Ne.symm he)] at hw
          obtain ⟨u1, hu1, hc'⟩ := hsome k w hw
          rw [dGet_dSet_ne _ _ he] at hu1
          exact ⟨u1, hu1, hc'⟩

/-- Keys present in the `initDict` of a name list. -/
theorem mem_keysOf_initDictAux (names : List String) :
    ∀ (m : List (String × Int)) (k : String),
      k ∈ keysOf (names.foldl (fun m n => dSet m n 0) m) ↔ k ∈ names ∨ k ∈ keysOf m := by
  induction names with
  | nil => intro m k; simp
  | cons n rest ih =>
    intro m k
    rw [List.foldl_cons, ih]
    rw [keysOf_dSet]
    by_cases h : n ∈ keysOf m
    · simp only [if_pos h, List.mem_cons]
      constructor
      · rintro (h1 | h1)
        · exact Or.inl (Or.inr h1)
        · exact Or.inr h1
      · rintro ((h1 | h1) | h1)
        · exact Or.inr (h1 ▸ h)
        · exact Or.inl h1
        · exact Or.inr h1
    · simp only [if_neg h, List.mem_cons, List.mem_append, List.mem_singleton]
      tauto

theorem mem_keysOf_initDict (names : List String) (k : String) :
    k ∈ keysOf (initDict names) ↔ k ∈ names := by
  rw [initDict, mem_keysOf_initDictAux]
  simp [keysOf]

theorem dGet_initDictAux (names : List String) :
    ∀ (m : List (String × Int)) (k : String) (v : Int),
      dGet (names.foldl (fun m n => dSet m n 0) m) k = some v →
      v = 0 ∨ dGet m k = some v := by
  induction names with
  | nil => intro m k v h; exact Or.inr h
  | cons n rest ih =>
    intro m k v h
    rcases ih _ _ _ h with h1 | h1
    · exact Or.inl h1
    · by_cases he : k = n
      · subst he
        rw [dGet_dSet_self] at h1
        injection h1 with h1
        exact Or.inl h1.symm
      · rw [dGet_dSet_ne _ _ he] at h1
        exact Or.inr h1

theorem dGet_initDict {names : List String} {k : String} {v : Int}
    (h : dGet (initDict names) k = some v) : v = 0 := by
  rcases dGet_initDictAux names [] k v h with h1 | h1
  · exact h1
  · simp [dGet] at h1

theorem nodup_keysOf_initDictAux (names : List String) :
    ∀ (m : List (String × Int)), (keysOf m).Nodup →
      (keysOf (names.foldl (fun m n => dSet m n 0) m)).Nodup := by
  induction names with
  | nil => intro m h; exact h
  | cons n rest ih =>
    intro m h
    exact ih _ (nodup_keysOf_dSet _ _ _ h)

theorem nodup_keysOf_initDict (names : List String) : (keysOf (initDict names)).Nodup :=
  nodup_keysOf_initDictAux names [] (by simp [keysOf])

theorem mem_keysOf_dSet_of_mem {α : Type} {m : List (String × α)} {k' : String}
    (k : String) (v : α) (h : k' ∈ keysOf m) : k' ∈ keysOf (dSet m k v) := by
  rw [keysOf_dSet]
  by_cases h2 : k ∈ keysOf m
  · simpa [h2] using h
  · simp [h2]
    exact Or.inl h

theorem keysOf_reset (b : List (String × Int)) :
    keysOf (b.map (fun p => (p.1, (0 : Int)))) = keysOf b := by
  induction b with
  | nil => rfl
  | cons q b ih =>
    obtain ⟨k1, v1⟩ := q
    simp only [List.map_cons, keysOf] at ih ⊢
    rw [ih]

theorem dGet_reset_eq_some {b : List (String × Int)} {k : String} {v : Int}
    (h : dGet (b.map (fun p => (p.1, (0 : Int)))) k = some v) : v = 0 := by
  induction b with
  | nil => simp [dGet] at h
  | cons q b ih =>
    obtain ⟨k1, v1⟩ := q
    by_cases h2 : k1 = k
    · simp [dGet, h2] at h
      omega
    · exact ih (by simpa [dGet, h2] using h)

/-- The per-street bet dict refines the spec-side bet function through
an overwrite at one key. -/
theorem NetRel_setBet {players : List String} {s : NetAcc}
    {p : (String → Int) × (String → Int)} (n : String) (a : Int)
    (hrel : NetRel players s p) :
    NetRel players ⟨s.committed, dSet s.bets n a⟩ (p.1, upd p.2 n a) := by
  obtain ⟨hkc, hndc, hndb, hpb, hvc, hvb⟩ := hrel
  refine ⟨hkc, hndc, nodup_keysOf_dSet _ _ _ hndb, ?_, hvc, ?_⟩
  · intro k hk
    exact mem_keysOf_dSet_of_mem _ _ (hpb k hk)
  · intro k v hv
    by_cases he : k = n
    · subst he
      rw [dGet_dSet_self] at hv
      injection hv with hv
      simp [upd, hv]
    · rw [dGet_dSet_ne _ _ he] at hv
      simp only [upd, if_neg he]
      exact hvb k v hv

/-- The street-marker fold preserves the refinement relation. -/
theorem netMarkerFold_rel {players : List String} {s s1 : NetAcc}
    {p : (String → Int) × (String → Int)}
    (hok : netMarkerFold s = .ok s1) (hrel : NetRel players s p) :
    NetRel players s1 (fun n => p.1 n + p.2 n, fun _ => 0) := by
  obtain ⟨hkc, hndc, hndb, hpb, hvc, hvb⟩ := hrel
  rw [netMarkerFold] at hok
  cases hfs : foldStreet s.bets s.committed with
  | error e => rw [hfs] at hok; exact absurd hok (by simp)
  | ok c =>
    rw [hfs] at hok
    injection hok with hok
    subst hok
    obtain ⟨hk, hnot, hsome⟩ := foldStreet_ok hfs hndb
    refine ⟨?_, ?_, ?_, ?_, ?_, ?_⟩
    · intro k
      show k ∈ keysOf c ↔ k ∈ players
      rw [hk]
      exact hkc k
    · show (keysOf c).Nodup
      rw [hk]
      exact hndc
    · show (keysOf (s.bets.map _)).Nodup
      rw [keysOf_reset]
      exact hndb
    · intro k hkp
      show k ∈ keysOf (s.bets.map _)
      rw [keysOf_reset]
      exact hpb k hkp
    · intro k v hv
      show p.1 k + p.2 k = v
      cases hbk : dGet s.bets k with
      | some w =>
        obtain ⟨u, hu, hc'⟩ := hsome k w hbk
        rw [hv] at hc'
        injection hc' with hc'
        rw [hvc k u hu, hvb k w hbk]
        exact hc'.symm
      | none =>
        exfalso
        have hkmem : k ∈ keysOf c := (mem_keysOf c k).mpr (by simp [hv])
        rw [hk] at hkmem
        have : k ∈ keysOf s.bets := hpb k ((hkc k).mp hkmem)
        rw [mem_keysOf, hbk] at this
        simp at this
    · intro k v hv
      show (0 : Int) = v
      exact (dGet_reset_eq_some hv).symm

/-- One step of the betting pass preserves the refinement relation. -/
theorem netStepE_rel {players : List String} {s s1 : NetAcc}
    {p : (String → Int) × (String → Int)} {l : Line}
    (hok : netStepE s l = .ok s1) (hrel : NetRel players s p) :
    NetRel players s1 (specStep p l) := by
  cases l with
  | flopMarker gs =>
    simp only [specStep, isStreetMarker, if_pos]
    exact netMarkerFold_rel hok hrel
  | turnMarker gs =>
    simp only [specStep, isStreetMarker, if_pos]
    exact netMarkerFold_rel hok hrel
  | riverMarker gs =>
    simp only [specStep, isStreetMarker, if_pos]
    exact netMarkerFold_rel hok hrel
  | action n k allin =>
    cases k with
    | post_sb a =>
      simp only [netStepE] at hok
      injection hok with hok
      subst hok
      simp only [specStep, isStreetMarker, Bool.false_eq_true, if_false, specBetUpd]
      exact NetRel_setBet n _ hrel
    | post_bb a =>
      simp only [netStepE] at hok
      injection hok with hok
      subst hok
      simp only [specStep, isStreetMarker, Bool.false_eq_true, if_false, specBetUpd]
      exact NetRel_setBet n _ hrel
    | bet a =>
      simp only [netStepE] at hok
      injection hok with hok
      subst hok
      simp only [specStep, isStreetMarker, Bool.false_eq_true, if_false, specBetUpd]
      exact NetRel_setBet n _ hrel
    | raiseTo i t =>
      simp only [netStepE] at hok
      injection hok with hok
      subst hok
      simp only [specStep, isStreetMarker, Bool.false_eq_true, if_false, specBetUpd]
      exact NetRel_setBet n _ hrel
    | call a =>
      simp only [netStepE] at hok
      cases hg : dGet s.bets n with
      | none => rw [hg] at hok; exact absurd hok (by simp)
      | some v0 =>
        rw [hg] at hok
        injection hok with hok
        subst hok
        have hv0 : p.2 n = v0 := hrel.2.2.2.2.2 n v0 hg
        have := NetRel_setBet n (v0 + (a : Int)) hrel
        simp only [specStep, isStreetMarker, Bool.false_eq_true, if_false, specBetUpd, hv0]
        exact this
    | fold =>
      simp only [netStepE] at hok
      injection hok with hok
      subst hok
      simp only [specStep, isStreetMarker, Bool.false_eq_true, if_false, specBetUpd]
      exact hrel
    | check =>
      simp only [netStepE] at hok
      injection hok with hok
      subst hok
      simp only [specStep, isStreetMarker, Bool.false_eq_true, if_false, specBetUpd]
      exact hrel
  | uncalled a n =>
    simp only [netStepE] at hok
    cases hg : dGet s.bets n with
    | none => rw [hg] at hok; exact absurd hok (by simp)
    | some v0 =>
      rw [hg] at hok
      injection hok with hok
      subst hok
      have hv0 : p.2 n = v0 := hrel.2.2.2.2.2 n v0 hg
      have := NetRel_setBet n (v0 - (a : Int)) hrel
      simp only [specStep, isStreetMarker, Bool.false_eq_true, if_false, specBetUpd, hv0]
      exact this
  | header hid bl =>
    simp only [netStepE] at hok
    injection hok with hok
    subst hok
    simp only [specStep, isStreetMarker, Bool.false_eq_true, if_false, specBetUpd]
    exact hrel
  | tableLine t b =>
    simp only [netStepE] at hok
    injection hok with hok
    subst hok
    simp only [specStep, isStreetMarker, Bool.false_eq_true, if_false, specBetUpd]
    exact hrel
  | seatLine st nm sk =>
    simp only [netStepE] at hok
    injection hok with hok
    subst hok
    simp only [specStep, isStreetMarker, Bool.false_eq_true, if_false, specBetUpd]
    exact hrel
  | dealt nm cs =>
    simp only [netStepE] at hok
    injection hok with hok
    subst hok
    simp only [specStep, isStreetMarker, Bool.false_eq_true, if_false, specBetUpd]
    exact hrel
  | holeMarker =>
    simp only [netStepE] at hok
    injection hok with hok
    subst hok
    simp only [specStep, isStreetMarker, Bool.false_eq_true, if_false, specBetUpd]
    exact hrel
  | summaryMarker =>
    simp only [netStepE] at hok
    injection hok with hok
    subst hok
    simp only [specStep, isStreetMarker, Bool.false_eq_true, if_false, specBetUpd]
    exact hrel
  | collected nm i f =>
    simp only [netStepE] at hok
    injection hok with hok
    subst hok
    simp only [specStep, isStreetMarker, Bool.false_eq_true, if_false, specBetUpd]
    exact hrel
  | totalPot pt rk =>
    simp only [netStepE] at hok
    injection hok with hok
    subst hok
    simp only [specStep, isStreetMarker, Bool.false_eq_true, if_false, specBetUpd]
    exact hrel
  | boardLine cs =>
    simp only [netStepE] at hok
    injection hok with hok
    subst hok
    simp only [specStep, isStreetMarker, Bool.false_eq_true, if_false, specBetUpd]
    exact hrel
  | blank =>
    simp only [netStepE] at hok
    injection hok with hok
    subst hok
    simp only [specStep, isStreetMarker, Bool.false_eq_true, if_false, specBetUpd]
    exact hrel
  | other =>
    simp only [netStepE] at hok
    injection hok with hok
    subst hok
    simp only [specStep, isStreetMarker, Bool.false_eq_true, if_false, specBetUpd]
    exact hrel

/-- The betting loop preserves the refinement relation. -/
theorem netRunE_rel {players : List String} :
    ∀ {ls : List Line} {s s1 : NetAcc} {p : (String → Int) × (String → Int)},
      netRunE s ls = .ok s1 → NetRel players s p →
      NetRel players s1 (ls.foldl specStep p) := by
  intro ls
  induction ls with
  | nil =>
    intro s s1 p hok hrel
    simp only [netRunE] at hok
    injection hok with hok
    subst hok
    exact hrel
  | cons l ls ih =>
    intro s s1 p hok hrel
    simp only [netRunE] at hok
    cases hs : netStepE s l with
    | error e => rw [hs] at hok; exact absurd hok (by simp)
    | ok s2 =>
      rw [hs] at hok
      rw [List.foldl_cons]
      exact ih hok (netStepE_rel hs hrel)

/-- One step of the winnings pass preserves its refinement relation. -/
theorem winStepE_rel {players : List String} {w w1 : List (String × Int)}
    {f : String → Int} {l : Line}
    (hok : winStepE w l = .ok w1) (hrel : WinRel players w f) :
    WinRel players w1 (specWinStep f l) := by
  obtain ⟨hkw, hndw, hvw⟩ := hrel
  cases l with
  | collected n i fr =>
    simp only [winStepE, specWinStep]
    simp only [winStepE] at hok
    cases hc : collectedCredit i fr with
    | none =>
      rw [hc] at hok
      injection hok with hok
      subst hok
      exact ⟨hkw, hndw, hvw⟩
    | some a =>
      rw [hc] at hok
      cases hg : dGet w n with
      | none => rw [hg] at hok; exact absurd hok (by simp)
      | some v0 =>
        rw [hg] at hok
        injection hok with hok
        subst hok
        have hv0 : f n = v0 := hvw n v0 hg
        refine ⟨?_, nodup_keysOf_dSet _ _ _ hndw, ?_⟩
        · intro k
          rw [keysOf_dSet, if_pos ((mem_keysOf w n).mpr (by simp [hg]))]
          exact hkw k
        · intro k v hv
          by_cases he : k = n
          · subst he
            rw [dGet_dSet_self] at hv
            injection hv with hv
            simp [upd, hv, hv0]
          · rw [dGet_dSet_ne _ _ he] at hv
            simp only [upd, if_neg he]
            exact hvw k v hv
  | header hid bl => injection hok with hok; subst hok; exact ⟨hkw, hndw, hvw⟩
  | tableLine t b => injection hok with hok; subst hok; exact ⟨hkw, hndw, hvw⟩
  | seatLine st nm sk => injection hok with hok; subst hok; exact ⟨hkw, hndw, hvw⟩
  | dealt nm cs => injection hok with hok; subst hok; exact ⟨hkw, hndw, hvw⟩
  | holeMarker => injection hok with hok; subst hok; exact ⟨hkw, hndw, hvw⟩
  | flopMarker gs => injection hok with hok; subst hok; exact ⟨hkw, hndw, hvw⟩
  | turnMarker gs => injection hok with hok; subst hok; exact ⟨hkw, hndw, hvw⟩
  | riverMarker gs => injection hok with hok; subst hok; exact ⟨hkw, hndw, hvw⟩
  | summaryMarker => injection hok with hok; subst hok; exact ⟨hkw, hndw, hvw⟩
  | action nm k al => injection hok with hok; subst hok; exact ⟨hkw, hndw, hvw⟩
  | uncalled a nm => injection hok with hok; subst hok; exact ⟨hkw, hndw, hvw⟩
  | totalPot pt rk => injection hok with hok; subst hok; exact ⟨hkw, hndw, hvw⟩
  | boardLine cs => injection hok with hok; subst hok; exact ⟨hkw, hndw, hvw⟩
  | blank => injection hok with hok; subst hok; exact ⟨hkw, hndw, hvw⟩
  | other => injection hok with hok; subst hok; exact ⟨hkw, hndw, hvw⟩

/-- The winnings loop preserves its refinement relation. -/
theorem winRunE_rel {players : List String} :
    ∀ {ls : List Line} {w w1 : List (String × Int)} {f : String → Int},
      winRunE w ls = .ok w1 → WinRel players w f →
      WinRel players w1 (ls.foldl specWinStep f) := by
  intro ls
  induction ls with
  | nil =>
    intro w w1 f hok hrel
    simp only [winRunE] at hok
    injection hok with hok
    subst hok
    exact hrel
  | cons l ls ih =>
    intro w w1 f hok hrel
    simp only [winRunE] at hok
    cases hs : winStepE w l with
    | error e => rw [hs] at hok; exact absurd hok (by simp)
    | ok w2 =>
      rw [hs] at hok
      rw [List.foldl_cons]
      exact ih hok (winStepE_rel hs hrel)

theorem dGet_buildRes (f : String → Int) :
    ∀ (ps : List String) (acc : List (String × Int)) (k : String),
      dGet (ps.foldl (fun m n => dSet m n (f n)) acc) k =
        if k ∈ ps then some (f k) else dGet acc k := by
  intro ps
  induction ps with
  | nil => intro acc k; simp
  | cons n ps ih =>
    intro acc k
    rw [List.foldl_cons, ih]
    by_cases h : k ∈ ps
    · simp [h]
    · by_cases he : k = n
      · subst he
        simp [h, dGet_dSet_self]
      · simp [h, he, dGet_dSet_ne _ _ he]

/-- Success of `compute_net_changes` refines the specification
description: the returned mapping sends every seated player to
winnings minus lifetime committed, computed by the spec-side
per-street-bet state machine. -/
theorem computeNetChangesE_spec {lines : List Line} {res : List (String × Int)}
    (hok : computeNetChangesE lines = .ok res) :
    ∀ n ∈ seatedPlayers lines, dGet res n = some (specNetDelta lines n) := by
  unfold computeNetChangesE at hok
  split at hok
  · exact absurd hok (by simp)
  next s1 h1 =>
    split at hok
    · exact absurd hok (by simp)
    next c h2 =>
      split at hok
      · exact absurd hok (by simp)
      next w h3 =>
        injection hok with hok
        subst hok
        intro n hn
        have hrel0 : NetRel (seatedPlayers lines)
            ⟨initDict (seatedPlayers lines), initDict (seatedPlayers lines)⟩
            (fun _ => (0 : Int), fun _ => (0 : Int)) := by
          refine ⟨fun k => mem_keysOf_initDict _ k, nodup_keysOf_initDict _,
                  nodup_keysOf_initDict _, fun k hk => (mem_keysOf_initDict _ k).mpr hk,
                  ?_, ?_⟩
          · intro k v hv
            exact (dGet_initDict hv).symm
          · intro k v hv
            exact (dGet_initDict hv).symm
        have hrel1 := netRunE_rel h1 hrel0
        have hwrel0 : WinRel (seatedPlayers lines) (initDict (seatedPlayers lines))
            (fun _ => (0 : Int)) := by
          refine ⟨fun k => mem_keysOf_initDict _ k, nodup_keysOf_initDict _, ?_⟩
          intro k v hv
          exact (dGet_initDict hv).symm
        have hwrel1 := winRunE_rel h3 hwrel0
        obtain ⟨hkc, hndc, hndb, hpb, hvc, hvb⟩ := hrel1
        obtain ⟨hkw, hndw, hvw⟩ := hwrel1
        obtain ⟨hk, hnot, hsome⟩ := foldStreet_ok h2 hndb
        rw [dGet_buildRes _ _ _ _, if_pos hn]
        have hbn : n ∈ keysOf s1.bets := hpb n hn
        rw [mem_keysOf] at hbn
        cases hb : dGet s1.bets n with
        | none => rw [hb] at hbn; simp at hbn
        | some w0 =>
          obtain ⟨u, hu, hc'⟩ := hsome n w0 hb
          have hwn : n ∈ keysOf w := (hkw n).mpr hn
          rw [mem_keysOf] at hwn
          cases hwv : dGet w n with
          | none => rw [hwv] at hwn; simp at hwn
          | some wv =>
            rw [hc']
            have e1 : (beforeSummary lines).foldl specWinStep (fun _ => 0) n = wv :=
              hvw n wv hwv
            have e2 : ((beforeSummary lines).foldl specStep
                (fun _ => (0 : Int), fun _ => (0 : Int))).1 n = u := hvc n u hu
            have e3 : ((beforeSummary lines).foldl specStep
                (fun _ => (0 : Int), fun _ => (0 : Int))).2 n = w0 := hvb n w0 hb
            simp only [Option.getD_some, specNetDelta, specWinnings, specCommitted]
            rw [e1, e2, e3]

/-! ## Lemmas about the parser's board invariant -/

theorem phaseInv_of_eq {ph : BoardPhase} {bd : List String} {s s1 : ParseState}
    (h : boardFields s1 = boardFields s) (hinv : phaseInv ph bd s) :
    phaseInv ph bd s1 := by
  obtain ⟨h1, h2, h3, h4⟩ := hinv
  simp only [boardFields, Prod.mk.injEq] at h
  obtain ⟨e1, e2, e3, e4, e5⟩ := h
  refine ⟨by rw [e1]; exact h1, by rw [e2, e3, e4]; exact h2,
          by rw [e5]; exact h3, by rw [e2, e3, e4]; exact h4⟩

theorem lensOK_goodLens {ph : BoardPhase} {f t r : List String}
    (h : lensOK ph f t r) : goodLens f t r := by
  cases ph with
  | pre => exact Or.inl h
  | afterFlop => exact Or.inr (Or.inl h)
  | afterTurn => exact Or.inr (Or.inr (Or.inl h))
  | afterRiver => exact Or.inr (Or.inr (Or.inr h))
  | summary => exact h

/-- Running the parser over a valid suffix preserves the board
invariant (for the phase and board the validity run ends in). -/
theorem validFrom_inv :
    ∀ (ls : List Line) (ph : BoardPhase) (bd : List String) (s : ParseState),
      validFrom ph bd ls = true → phaseInv ph bd s →
      ∃ ph' bd', phaseInv ph' bd' (ls.foldl parseStep s) := by
  intro ls
  induction ls with
  | nil =>
    intro ph bd s _ hinv
    exact ⟨ph, bd, hinv⟩
  | cons l ls ih =>
    intro ph bd s hv hinv
    rw [List.foldl_cons]
    cases l with
    | flopMarker gs =>
      simp only [validFrom, Bool.and_eq_true, decide_eq_true_eq] at hv
      obtain ⟨⟨hph, hlen⟩, hrest⟩ := hv
      subst hph
      obtain ⟨h1, h2, h3, h4⟩ := hinv
      obtain ⟨hf, ht, hr⟩ := h4
      have hbd : bd = [] := by rw [h2, hf, ht, hr]; rfl
      refine ih .afterFlop (bd ++ gs.headD []) _ hrest ?_
      refine ⟨?_, ?_, ?_, ?_⟩
      · show s.hand.board ++ gs.headD [] = bd ++ gs.headD []
        rw [h1]
      · show bd ++ gs.headD [] = gs.headD [] ++ s.hand.bbsTurn ++ s.hand.bbsRiver
        rw [hbd, ht, hr]
        simp
      · show s.inSummary = true ↔ BoardPhase.afterFlop = BoardPhase.summary
        simp only [show (BoardPhase.afterFlop = BoardPhase.summary) = False by simp]
        simp only [h3]
        simp
      · exact ⟨hlen, ht, hr⟩
    | turnMarker gs =>
      simp only [validFrom, Bool.and_eq_true, decide_eq_true_eq] at hv
      obtain ⟨⟨⟨hph, hgs⟩, hlen⟩, hrest⟩ := hv
      subst hph
      obtain ⟨h1, h2, h3, h4⟩ := hinv
      obtain ⟨hf, ht, hr⟩ := h4
      have hstep : parseStep s (.turnMarker gs) =
          { s with street := Street.turn,
                   hand := { s.hand with board := s.hand.board ++ gs.getLastD [],
                                         bbsTurn := gs.getLastD [] } } := by
        simp [parseStep, hgs]
      rw [hstep]
      refine ih .afterTurn (bd ++ gs.getLastD []) _ hrest ?_
      refine ⟨?_, ?_, ?_, ?_⟩
      · show s.hand.board ++ gs.getLastD [] = bd ++ gs.getLastD []
        rw [h1]
      · show bd ++ gs.getLastD [] =
          s.hand.bbsFlop ++ gs.getLastD [] ++ s.hand.bbsRiver
        rw [h2, ht, hr]
        simp
      · show s.inSummary = true ↔ BoardPhase.afterTurn = BoardPhase.summary
        simp only [show (BoardPhase.afterTurn = BoardPhase.summary) = False by simp]
        simp only [h3]
        simp
      · exact ⟨hf, hlen, hr⟩
    | riverMarker gs =>
      simp only [validFrom, Bool.and_eq_true, decide_eq_true_eq] at hv
      obtain ⟨⟨⟨hph, hgs⟩, hlen⟩, hrest⟩ := hv
      subst hph
      obtain ⟨h1, h2, h3, h4⟩ := hinv
      obtain ⟨hf, ht, hr⟩ := h4
      have hstep : parseStep s (.riverMarker gs) =
          { s with street := Street.river,
                   hand := { s.hand with board := s.hand.board ++ gs.getLastD [],
                                         bbsRiver := gs.getLastD [] } } := by
        simp [parseStep, hgs]
      rw [hstep]
      refine ih .afterRiver (bd ++ gs.getLastD []) _ hrest ?_
      refine ⟨?_, ?_, ?_, ?_⟩
      · show s.hand.board ++ gs.getLastD [] = bd ++ gs.getLastD []
        rw [h1]
      · show bd ++ gs.getLastD [] =
          s.hand.bbsFlop ++ s.hand.bbsTurn ++ gs.getLastD []
        rw [h2, hr]
        simp
      · show s.inSummary = true ↔ BoardPhase.afterRiver = BoardPhase.summary
        simp only [show (BoardPhase.afterRiver = BoardPhase.summary) = False by simp]
        simp only [h3]
        simp
      · exact ⟨hf, ht, hlen⟩
    | summaryMarker =>
      simp only [validFrom] at hv
      obtain ⟨h1, h2, h3, h4⟩ := hinv
      refine ih .summary bd _ hv ?_
      exact ⟨h1, h2, by simp [parseStep], lensOK_goodLens h4⟩
    | boardLine cs =>
      simp only [validFrom, Bool.and_eq_true, Bool.or_eq_true, decide_eq_true_eq] at hv
      obtain ⟨hor, hrest⟩ := hv
      by_cases hph : ph = BoardPhase.summary
      · subst hph
        have hcs : cs = bd := by
          rcases hor with h | h
          · exact absurd rfl h
          · exact h
        obtain ⟨h1, h2, h3, h4⟩ := hinv
        have hsum : s.inSummary = true := h3.mpr rfl
        have hstep : parseStep s (.boardLine cs) =
            { s with hand := { s.hand with board := cs } } := by
          simp only [parseStep]
          rw [if_pos hsum]
        rw [hstep]
        refine ih .summary bd _ hrest ?_
        exact ⟨hcs, h2, by simp [hsum], h4⟩
      · have hsum : s.inSummary = false := by
          cases hs2 : s.inSummary
          · rfl
          · exact absurd (hinv.2.2.1.mp hs2) hph
        have hstep : parseStep s (.boardLine cs) = s := by
          simp only [parseStep]
          rw [if_neg (by simp [hsum])]
        rw [hstep]
        exact ih ph bd s hrest hinv
    | header hid bl =>
      simp only [validFrom] at hv
      refine ih ph bd _ hv (phaseInv_of_eq ?_ hinv)
      cases hid with
      | none =>
        cases bl with
        | none => rfl
        | some q => obtain ⟨sb, bb⟩ := q; rfl
      | some i =>
        cases bl with
        | none => rfl
        | some q => obtain ⟨sb, bb⟩ := q; rfl
    | tableLine t b =>
      simp only [validFrom] at hv
      refine ih ph bd _ hv (phaseInv_of_eq ?_ hinv)
      cases b with
      | none => rfl
      | some q => rfl
    | seatLine st nm sk =>
      simp only [validFrom] at hv
      exact ih ph bd _ hv (phaseInv_of_eq rfl hinv)
    | dealt nm cs =>
      simp only [validFrom] at hv
      exact ih ph bd _ hv (phaseInv_of_eq rfl hinv)
    | holeMarker =>
      simp only [validFrom] at hv
      exact ih ph bd _ hv (phaseInv_of_eq rfl hinv)
    | action nm k al =>
      simp only [validFrom] at hv
      refine ih ph bd _ hv (phaseInv_of_eq ?_ hinv)
      simp only [parseStep]
      by_cases h : s.inSummary = true
      · rw [if_pos h]
      · rw [if_neg h]
        cases s.street <;> rfl
    | uncalled a nm =>
      simp only [validFrom] at hv
      exact ih ph bd _ hv (phaseInv_of_eq rfl hinv)
    | collected nm i f =>
      simp only [validFrom] at hv
      exact ih ph bd _ hv (phaseInv_of_eq rfl hinv)
    | totalPot pt rk =>
      simp only [validFrom] at hv
      refine ih ph bd _ hv (phaseInv_of_eq ?_ hinv)
      simp only [parseStep]
      by_cases h : s.inSummary = true
      · rw [if_pos h]
        rfl
      · rw [if_neg h]
    | blank =>
      simp only [validFrom] at hv
      exact ih ph bd _ hv (phaseInv_of_eq rfl hinv)
    | other =>
      simp only [validFrom] at hv
      exact ih ph bd _ hv (phaseInv_of_eq rfl hinv)

/-! ## Lemmas about the session stack ledger -/

theorem stacksNonneg_dSet {s : List (String × Int)} {v : Int} (k : String)
    (hs : stacksNonneg s) (hv : 0 ≤ v) : stacksNonneg (dSet s k v) := by
  induction s with
  | nil =>
    intro p hp
    simp [dSet] at hp
    rw [hp]
    exact hv
  | cons q m ih =>
    obtain ⟨k1, w⟩ := q
    have hs' : stacksNonneg m := fun p hp => hs p (List.mem_cons_of_mem _ hp)
    by_cases h : k1 = k
    · intro p hp
      rw [dSet, if_pos h] at hp
      rcases List.mem_cons.mp hp with h1 | h1
      · rw [h1]; exact hv
      · exact hs' p h1
    · intro p hp
      rw [dSet, if_neg h] at hp
      rcases List.mem_cons.mp hp with h1 | h1
      · rw [h1]; exact hs (k1, w) (List.mem_cons_self _ _)
      · exact ih hs' p h1

theorem applyDeltas_nonneg {led : List (String × Int)} (net : List (String × Int))
    (h : stacksNonneg led) : stacksNonneg (applyDeltas led net) := by
  induction net generalizing led with
  | nil => exact h
  | cons p net ih =>
    rw [applyDeltas, List.foldl_cons]
    exact ih (stacksNonneg_dSet _ h (le_max_left 0 _))

/-! ## Lemmas about the parser's ante and actions -/

theorem parseStep_ante (s : ParseState) (l : Line) :
    (parseStep s l).hand.ante = s.hand.ante := by
  cases l with
  | header hid bl =>
    cases hid with
    | none =>
      cases bl with
      | none => rfl
      | some q => obtain ⟨a, b⟩ := q; rfl
    | some i =>
      cases bl with
      | none => rfl
      | some q => obtain ⟨a, b⟩ := q; rfl
  | tableLine t b => cases b <;> rfl
  | seatLine st nm sk => rfl
  | dealt nm cs => rfl
  | holeMarker => rfl
  | flopMarker gs => rfl
  | turnMarker gs =>
    simp only [parseStep]
    split <;> rfl
  | riverMarker gs =>
    simp only [parseStep]
    split <;> rfl
  | summaryMarker => rfl
  | action nm k al =>
    simp only [parseStep]
    split
    · rfl
    · cases s.street <;> rfl
  | uncalled a nm => rfl
  | collected nm i f => rfl
  | totalPot pt rk =>
    simp only [parseStep]
    split <;> rfl
  | boardLine cs =>
    simp only [parseStep]
    split <;> rfl
  | blank => rfl
  | other => rfl

theorem parseRun_ante (ls : List Line) :
    ∀ s : ParseState, ((ls.foldl parseStep s).hand.ante = s.hand.ante) := by
  induction ls with
  | nil => intro s; rfl
  | cons l ls ih =>
    intro s
    rw [List.foldl_cons, ih, parseStep_ante]

theorem parseHand_ante (lines : List Line) : (parseHand lines).ante = 0 := by
  rw [parseHand, parseRun_ante]
  rfl

/-! ## Lemmas about the serializer's blind handling -/

theorem blindsStep_skip {h : Hand} {bl : List Int} {a : Action}
    (ha : isExactBlindPost a = false) : blindsStep h bl a = bl := by
  obtain ⟨pl, k, al, am⟩ := a
  cases k with
  | post_sb amt =>
    cases al with
    | false => simp [isExactBlindPost] at ha
    | true =>
      rw [blindsStep]
      dsimp only [actionTypeStr, kindStr]
      rw [if_neg (show ¬(("post_sb" ++ "_allin" : String) = "post_sb") by decide),
          if_neg (show ¬(("post_sb" ++ "_allin" : String) = "post_bb") by decide)]
  | post_bb amt =>
    cases al with
    | false => simp [isExactBlindPost] at ha
    | true =>
      rw [blindsStep]
      dsimp only [actionTypeStr, kindStr]
      rw [if_neg (show ¬(("post_bb" ++ "_allin" : String) = "post_sb") by decide),
          if_neg (show ¬(("post_bb" ++ "_allin" : String) = "post_bb") by decide)]
  | fold =>
    cases al with
    | false =>
      rw [blindsStep]
      dsimp only [actionTypeStr, kindStr]
      rw [if_neg (show ¬(("fold" ++ "" : String) = "post_sb") by decide),
          if_neg (show ¬(("fold" ++ "" : String) = "post_bb") by decide)]
    | true =>
      rw [blindsStep]
      dsimp only [actionTypeStr, kindStr]
      rw [if_neg (show ¬(("fold" ++ "_allin" : String) = "post_sb") by decide),
          if_neg (show ¬(("fold" ++ "_allin" : String) = "post_bb") by decide)]
  | check =>
    cases al with
    | false =>
      rw [blindsStep]
      dsimp only [actionTypeStr, kindStr]
      rw [if_neg (show ¬(("check" ++ "" : String) = "post_sb") by decide),
          if_neg (show ¬(("check" ++ "" : String) = "post_bb") by decide)]
    | true =>
      rw [blindsStep]
      dsimp only [actionTypeStr, kindStr]
      rw [if_neg (show ¬(("check" ++ "_allin" : String) = "post_sb") by decide),
          if_neg (show ¬(("check" ++ "_allin" : String) = "post_bb") by decide)]
  | call amt =>
    cases al with
    | false =>
      rw [blindsStep]
      dsimp only [actionTypeStr, kindStr]
      rw [if_neg (show ¬(("call" ++ "" : String) = "post_sb") by decide),
          if_neg (show ¬(("call" ++ "" : String) = "post_bb") by decide)]
    | true =>
      rw [blindsStep]
      dsimp only [actionTypeStr, kindStr]
      rw [if_neg (show ¬(("call" ++ "_allin" : String) = "post_sb") by decide),
          if_neg (show ¬(("call" ++ "_allin" : String) = "post_bb") by decide)]
  | bet amt =>
    cases al with
    | false =>
      rw [blindsStep]
      dsimp only [actionTypeStr, kindStr]
      rw [if_neg (show ¬(("bet" ++ "" : String) = "post_sb") by decide),
          if_neg (show ¬(("bet" ++ "" : String) = "post_bb") by decide)]
    | true =>
      rw [blindsStep]
      dsimp only [actionTypeStr, kindStr]
      rw [if_neg (show ¬(("bet" ++ "_allin" : String) = "post_sb") by decide),
          if_neg (show ¬(("bet" ++ "_allin" : String) = "post_bb") by decide)]
  | raiseTo inc tot =>
    cases al with
    | false =>
      rw [blindsStep]
      dsimp only [actionTypeStr, kindStr]
      rw [if_neg (show ¬(("raise" ++ "" : String) = "post_sb") by decide),
          if_neg (show ¬(("raise" ++ "" : String) = "post_bb") by decide)]
    | true =>
      rw [blindsStep]
      dsimp only [actionTypeStr, kindStr]
      rw [if_neg (show ¬(("raise" ++ "_allin" : String) = "post_sb") by decide),
          if_neg (show ¬(("raise" ++ "_allin" : String) = "post_bb") by decide)]

theorem foldl_blindsStep_filter (h : Hand) :
    ∀ (l : List Action) (init : List Int),
      l.foldl (blindsStep h) init = (l.filter isExactBlindPost).foldl (blindsStep h) init := by
  intro l
  induction l with
  | nil => intro init; rfl
  | cons a l ih =>
    intro init
    cases ha : isExactBlindPost a with
    | true =>
      rw [List.foldl_cons, List.filter_cons, if_pos (by simp [ha]), List.foldl_cons, ih]
    | false =>
      rw [List.foldl_cons, blindsStep_skip ha, List.filter_cons, if_neg (by simp [ha]), ih]

theorem blindsOf_char {h : Hand} {asb abb : Action} {i j : Nat}
    (hfil : h.preflop.filter isExactBlindPost = [asb, abb])
    (hsb : isSBPost asb = true) (hbb : isBBPost abb = true)
    (hi : playerIndex h.players asb.player = some i)
    (hj : playerIndex h.players abb.player = some j) :
    blindsOf h =
      ((List.replicate h.players.length 0).set i h.small_blind).set j h.big_blind := by
  rw [blindsOf, foldl_blindsStep_filter, hfil]
  rw [List.foldl_cons, List.foldl_cons, List.foldl_nil]
  have e1 : blindsStep h (List.replicate h.players.length 0) asb =
      (List.replicate h.players.length 0).set i h.small_blind := by
    obtain ⟨pl, k, al, am⟩ := asb
    cases k with
    | post_sb amt =>
      cases al with
      | true => simp [isSBPost] at hsb
      | false =>
        rw [blindsStep]
        dsimp only [actionTypeStr, kindStr]
        rw [if_pos (show (("post_sb" ++ "" : String) = "post_sb") by decide)]
        dsimp only at hi
        rw [hi]
    | post_bb amt => simp [isSBPost] at hsb
    | fold => simp [isSBPost] at hsb
    | check => simp [isSBPost] at hsb
    | call amt => simp [isSBPost] at hsb
    | bet amt => simp [isSBPost] at hsb
    | raiseTo inc tot => simp [isSBPost] at hsb
  rw [e1]
  obtain ⟨pl, k, al, am⟩ := abb
  cases k with
  | post_bb amt =>
    cases al with
    | true => simp [isBBPost] at hbb
    | false =>
      rw [blindsStep]
      dsimp only [actionTypeStr, kindStr]
      rw [if_neg (show ¬(("post_bb" ++ "" : String) = "post_sb") by decide),
          if_pos (show (("post_bb" ++ "" : String) = "post_bb") by decide)]
      dsimp only at hj
      rw [hj]
  | post_sb amt => simp [isBBPost] at hbb
  | fold => simp [isBBPost] at hbb
  | check => simp [isBBPost] at hbb
  | call amt => simp [isBBPost] at hbb
  | bet amt => simp [isBBPost] at hbb
  | raiseTo inc tot => simp [isBBPost] at hbb

theorem emittedPreflop_eq (h : Hand) :
    emittedPreflop h = h.preflop.filter (fun a => !(isExactBlindPost a)) := by
  rw [emittedPreflop]
  apply List.filter_congr
  intro a _
  obtain ⟨pl, k, al, am⟩ := a
  cases k <;> cases al <;> rfl

/-! ## Claim theorems -/

/-- C1: the net-chip-change calculator, run over a hand chunk's lines in
order before the summary marker, refines the specified accounting: a
per-street bet per player where blind posts, bets and raise-to-totals
overwrite, calls add, and uncalled-bet returns subtract
(`specBetUpd`); every street marker folds the per-street bets into the
lifetime committed totals and resets them, with one more fold at end of
hand (`specStep` / `specCommitted`); and the returned mapping assigns
every seated player winnings minus lifetime committed
(`specNetDelta`). -/
theorem C1_net_calculator_refines_spec (lines : List Line) (res : List (String × Int))
    (hok : computeNetChangesE lines = .ok res) :
    ∀ n ∈ seatedPlayers lines, dGet res n = some (specNetDelta lines n) :=
  computeNetChangesE_spec hok

/-- Witness for C1 at the repository's example hand. -/
theorem C1_witness :
    computeNetChangesE exampleLines = .ok
      [("MrBlue", 310), ("MrBlonde", -100), ("MrWhite", 0), ("MrPink", -210),
       ("MrBrown", 0), ("Pluribus", 0)] ∧
    "MrBlue" ∈ seatedPlayers exampleLines ∧
    dGet [("MrBlue", (310 : Int)), ("MrBlonde", -100), ("MrWhite", 0), ("MrPink", -210),
          ("MrBrown", 0), ("Pluribus", 0)] "MrBlue" =
      some (specNetDelta exampleLines "MrBlue") :=
  ⟨rfl, by decide,
   C1_net_calculator_refines_spec exampleLines _ rfl "MrBlue" (by decide)⟩

/-- C2: the ledger update initializes a missing player at 10000, adds
the delta and clamps at zero; consequently, starting from any
non-negative ledger entry, the running stacks stay non-negative after
any number of applied hands with arbitrary net deltas. -/
theorem C2_ledger_nonneg :
    (∀ (led : List (String × Int)) (name : String) (delta : Int),
        applyDeltas led [(name, delta)] =
          dSet led name (max 0 ((dGet led name).getD 10000 + delta))) ∧
    (∀ init : List (String × Int), stacksNonneg init →
      ∀ hands : List (List (String × Int)),
        stacksNonneg (hands.foldl applyDeltas init)) := by
  constructor
  · intro led name delta
    rfl
  · intro init hinit hands
    revert init
    induction hands with
    | nil => intro init hinit; exact hinit
    | cons net hands ih =>
      intro init hinit
      rw [List.foldl_cons]
      exact ih _ (applyDeltas_nonneg net hinit)

/-- Witness for C2 on a small ledger and delta sequence. -/
theorem C2_witness :
    stacksNonneg [("A", (5 : Int))] ∧
    stacksNonneg ([[("A", (-100 : Int))], [("B", (-3 : Int))]].foldl applyDeltas
      [("A", (5 : Int))]) := by
  have h1 : stacksNonneg [("A", (5 : Int))] := by
    intro p hp
    simp at hp
    rw [hp]
    decide
  exact ⟨h1, C2_ledger_nonneg.2 _ h1 _⟩

/-- C3: on the specified 6-player example hand the calculator returns
+310 for MrBlue (the small-blind poster who called the raise and
collected 520), −210 for the raiser MrPink, −100 for the folding big
blind MrBlonde, 0 for each non-blind folder, and the deltas sum to 0. -/
theorem C3_example_hand_deltas :
    computeNetChangesE exampleLines = .ok
      [("MrBlue", 310), ("MrBlonde", -100), ("MrWhite", 0), ("MrPink", -210),
       ("MrBrown", 0), ("Pluribus", 0)] ∧
    (((computeNetChangesE exampleLines).toOption.getD []).map (fun p => p.2)).sum = 0 :=
  ⟨rfl, rfl⟩

/-- C4: a turn or river marker whose bracket groups list the board so
far plus the new card contributes exactly the last bracket group: the
full board is extended by it and the per-street card list (empty until
then) becomes exactly it. -/
theorem C4_last_bracket_group (s : ParseState) (gs : List (List String))
    (hlen : 2 ≤ gs.length) (ht : s.hand.bbsTurn = []) (hr : s.hand.bbsRiver = []) :
    ((parseStep s (.turnMarker gs)).hand.board = s.hand.board ++ gs.getLastD [] ∧
     (parseStep s (.turnMarker gs)).hand.bbsTurn = s.hand.bbsTurn ++ gs.getLastD []) ∧
    ((parseStep s (.riverMarker gs)).hand.board = s.hand.board ++ gs.getLastD [] ∧
     (parseStep s (.riverMarker gs)).hand.bbsRiver = s.hand.bbsRiver ++ gs.getLastD []) := by
  have h1 : 1 < gs.length := hlen
  refine ⟨⟨?_, ?_⟩, ?_, ?_⟩
  · simp [parseStep, h1]
  · simp [parseStep, h1, ht]
  · simp [parseStep, h1]
  · simp [parseStep, h1, hr]

/-- Witness for C4 at the example hand's turn marker line. -/
theorem C4_witness :
    2 ≤ ([["7d", "5h", "9d"], ["7c"]] : List (List String)).length ∧
    initState.hand.bbsTurn = [] ∧ initState.hand.bbsRiver = [] ∧
    (((parseStep initState (.turnMarker [["7d", "5h", "9d"], ["7c"]])).hand.board =
        initState.hand.board ++ [["7d", "5h", "9d"], ["7c"]].getLastD [] ∧
      (parseStep initState (.turnMarker [["7d", "5h", "9d"], ["7c"]])).hand.bbsTurn =
        initState.hand.bbsTurn ++ [["7d", "5h", "9d"], ["7c"]].getLastD []) ∧
     ((parseStep initState (.riverMarker [["7d", "5h", "9d"], ["7c"]])).hand.board =
        initState.hand.board ++ [["7d", "5h", "9d"], ["7c"]].getLastD [] ∧
      (parseStep initState (.riverMarker [["7d", "5h", "9d"], ["7c"]])).hand.bbsRiver =
        initState.hand.bbsRiver ++ [["7d", "5h", "9d"], ["7c"]].getLastD [])) :=
  ⟨by decide, rfl, rfl,
   C4_last_bracket_group initState [["7d", "5h", "9d"], ["7c"]] (by decide) rfl rfl⟩

/-- C5: for every valid hand chunk, the parsed full board equals the
concatenation of the flop, turn and river per-street card lists in that
order, and its length is 0, 3, 4 or 5. -/
theorem C5_board_concat (lines : List Line) (hv : validChunk lines = true) :
    (parseHand lines).board =
      (parseHand lines).bbsFlop ++ (parseHand lines).bbsTurn ++ (parseHand lines).bbsRiver ∧
    (parseHand lines).board.length ∈ ([0, 3, 4, 5] : List Nat) := by
  have hinv0 : phaseInv .pre [] initState := by
    refine ⟨rfl, rfl, by simp [initState], rfl, rfl, rfl⟩
  obtain ⟨ph', bd', hinv⟩ := validFrom_inv lines .pre [] initState hv hinv0
  obtain ⟨h1, h2, h3, h4⟩ := hinv
  constructor
  · rw [parseHand, h1, h2]
  · rw [parseHand, h1, h2]
    have hg := lensOK_goodLens h4
    rcases hg with ⟨hf, ht, hr⟩ | ⟨hf, ht, hr⟩ | ⟨hf, ht, hr⟩ | ⟨hf, ht, hr⟩ <;>
      simp [hf, ht, hr]

/-- Witness for C5 at the repository's example hand. -/
theorem C5_witness :
    validChunk exampleLines = true ∧
    ((parseHand exampleLines).board =
      (parseHand exampleLines).bbsFlop ++ (parseHand exampleLines).bbsTurn ++
        (parseHand exampleLines).bbsRiver ∧
     (parseHand exampleLines).board.length ∈ ([0, 3, 4, 5] : List Nat)) :=
  ⟨by decide, C5_board_concat exampleLines (by decide)⟩

/-- C6 counterexample: the chunk `cx6Lines` posts the small blind
all-in, so `parse_action` stores the kind string `post_sb_allin`; the
serializer's filter `not in ['post_sb','post_bb']` keeps this blind
post in the emitted preflop action list, and the blind-array
computation (`== 'post_sb'`) leaves 0 at the poster's index even though
the hand's configured small blind is 50.  This refutes the claim that
every blind-post action is excluded and that the posting players'
indices always carry the configured blind values. -/
theorem C6_counterexample :
    (emittedPreflop (parseHand cx6Lines)).any isBlindPostKind = true ∧
    blindsOf (parseHand cx6Lines) = [0, 100] ∧
    (parseHand cx6Lines).small_blind = 50 :=
  ⟨rfl, rfl, rfl⟩

/-- C6 (amended): the serializer excludes exactly those preflop actions
whose kind is a plain (non-all-in) blind post, and when the preflop
actions contain exactly one plain small-blind post and one plain
big-blind post by players at indices `i` and `j`, the blinds array is
all zeros except the configured small blind at `i` and big blind at
`j`.  All-in-qualified blind posts are neither excluded nor recorded in
the blinds array. -/
theorem C6_amended :
    (∀ h : Hand, emittedPreflop h = h.preflop.filter (fun a => !(isExactBlindPost a))) ∧
    (∀ (h : Hand) (asb abb : Action) (i j : Nat),
      h.preflop.filter isExactBlindPost = [asb, abb] →
      isSBPost asb = true → isBBPost abb = true →
      playerIndex h.players asb.player = some i →
      playerIndex h.players abb.player = some j →
      blindsOf h =
        ((List.replicate h.players.length 0).set i h.small_blind).set j h.big_blind) :=
  ⟨emittedPreflop_eq,
   fun _ _ _ _ _ h1 h2 h3 h4 h5 => blindsOf_char h1 h2 h3 h4 h5⟩

/-- Witness for C6 (amended) at the repository's example hand. -/
theorem C6_witness :
    ((parseHand exampleLines).preflop.filter isExactBlindPost =
      [{ player := "MrBlue", kind := .post_sb 50, allin := false, amount := some 50 },
       { player := "MrBlonde", kind := .post_bb 100, allin := false, amount := some 100 }]) ∧
    isSBPost { player := "MrBlue", kind := .post_sb 50, allin := false,
               amount := some 50 } = true ∧
    playerIndex (parseHand exampleLines).players "MrBlue" = some 0 ∧
    blindsOf (parseHand exampleLines) = [50, 100, 0, 0, 0, 0] ∧
    emittedPreflop (parseHand exampleLines) =
      (parseHand exampleLines).preflop.filter (fun a => !(isExactBlindPost a)) := by
  refine ⟨rfl, rfl, rfl, ?_, C6_amended.1 (parseHand exampleLines)⟩
  have h2 := C6_amended.2 (parseHand exampleLines)
    { player := "MrBlue", kind := .post_sb 50, allin := false, amount := some 50 }
    { player := "MrBlonde", kind := .post_bb 100, allin := false, amount := some 100 }
    0 1 rfl rfl rfl rfl rfl
  exact h2.trans rfl

/-- C7: a chunk whose extracted hand id was already processed in the
run is skipped: the skip counter is bumped and the outputs, session
ledger, seen-id set and converted counter are all left unchanged. -/
theorem C7_duplicate_skipped (st : DriverState) (chunk : List Line) (hid : String)
    (h1 : isHandChunk chunk = true) (h2 : extractHandId chunk = some hid)
    (h3 : hid ∈ st.seenIds) :
    processChunk st chunk = { st with skipped := st.skipped + 1 } := by
  simp only [processChunk, h1, h2]
  rw [if_neg (by simp)]
  rw [if_pos h3]

/-- Witness for C7: reprocessing the example hand's id. -/
theorem C7_witness :
    isHandChunk exampleLines = true ∧
    extractHandId exampleLines = some "100000" ∧
    "100000" ∈ (⟨[], ["100000"], [], 1, 0⟩ : DriverState).seenIds ∧
    processChunk ⟨[], ["100000"], [], 1, 0⟩ exampleLines =
      { (⟨[], ["100000"], [], 1, 0⟩ : DriverState) with
          skipped := (⟨[], ["100000"], [], 1, 0⟩ : DriverState).skipped + 1 } :=
  ⟨rfl, rfl, by decide,
   C7_duplicate_skipped ⟨[], ["100000"], [], 1, 0⟩ exampleLines "100000" rfl rfl (by decide)⟩

/-- C8: on the first hand of a session (no ledger entry for the session
name), the ledger entry created for the session is the parser's
reported per-player starting stacks (`seedStacks` of the parsed hand,
not the 10000 placeholder), updated with that hand's net deltas. -/
theorem C8_first_hand_seeding (st : DriverState) (chunk : List Line) (hid : String)
    (net : List (String × Int))
    (h1 : isHandChunk chunk = true) (h2 : extractHandId chunk = some hid)
    (h3 : hid ∉ st.seenIds)
    (h4 : dGet st.sessionStacks (extractSession chunk) = none)
    (h5 : computeNetChangesE chunk = .ok net) :
    dGet (processChunk st chunk).sessionStacks (extractSession chunk) =
      some (applyDeltas (seedStacks (parseHand chunk)) net) := by
  simp only [processChunk, h1, h2]
  rw [if_neg (by simp)]
  rw [if_neg h3]
  simp only [h4, h5]
  rw [dGet_dSet_self]

/-- Witness for C8: the example hand as first hand of its session. -/
theorem C8_witness :
    isHandChunk exampleLines = true ∧
    extractHandId exampleLines = some "100000" ∧
    "100000" ∉ (⟨[], [], [], 0, 0⟩ : DriverState).seenIds ∧
    dGet (⟨[], [], [], 0, 0⟩ : DriverState).sessionStacks (extractSession exampleLines) =
      none ∧
    computeNetChangesE exampleLines = .ok
      [("MrBlue", 310), ("MrBlonde", -100), ("MrWhite", 0), ("MrPink", -210),
       ("MrBrown", 0), ("Pluribus", 0)] ∧
    dGet (processChunk ⟨[], [], [], 0, 0⟩ exampleLines).sessionStacks
        (extractSession exampleLines) =
      some (applyDeltas (seedStacks (parseHand exampleLines))
        [("MrBlue", 310), ("MrBlonde", -100), ("MrWhite", 0), ("MrPink", -210),
         ("MrBrown", 0), ("Pluribus", 0)]) :=
  ⟨rfl, rfl, by decide, rfl, rfl,
   C8_first_hand_seeding ⟨[], [], [], 0, 0⟩ exampleLines "100000" _ rfl rfl (by decide)
     rfl rfl⟩

/-- C9 counterexample: on the chunk `cx9Lines`, whose winner line reads
`collected 520.5 from pot`, the winnings regex matches nothing (only
`N` or the literal fraction `N.0` match), so the calculator credits 0
— not the integer part 520 the claim requires. -/
theorem C9_counterexample :
    collectedCredit 520 (some "5") = none ∧
    computeNetChangesE cx9Lines = .ok [("P", 0)] :=
  ⟨rfl, rfl⟩

/-- C9 (amended): a `collected N from pot` line is credited only when
its amount token is an integer numeral, or an integer numeral followed
by the literal fraction `.0`; both credit the integer.  Any other
fractional amount token fails to match the pattern and contributes
nothing to the player's winnings. -/
theorem C9_amended :
    (∀ i : Nat, collectedCredit i none = some i) ∧
    (∀ i : Nat, collectedCredit i (some "0") = some i) ∧
    (∀ (i : Nat) (f : String), f ≠ "0" → collectedCredit i (some f) = none) ∧
    (∀ (w : List (String × Int)) (n : String) (i : Nat) (f : Option String),
      collectedCredit i f = none → winStepE w (.collected n i f) = .ok w) ∧
    (∀ (w : List (String × Int)) (n : String) (i : Nat) (f : Option String)
       (v : Int) (a : Nat),
      dGet w n = some v → collectedCredit i f = some a →
      winStepE w (.collected n i f) = .ok (dSet w n (v + (a : Int)))) := by
  refine ⟨fun i => rfl, fun i => rfl, ?_, ?_, ?_⟩
  · intro i f hf
    simp only [collectedCredit]
    rw [if_neg hf]
  · intro w n i f hc
    rw [winStepE, hc]
  · intro w n i f v a hw hc
    rw [winStepE, hc, hw]

/-- Witness for C9 (amended) at concrete tokens. -/
theorem C9_witness :
    collectedCredit 7 none = some 7 ∧
    collectedCredit 7 (some "0") = some 7 ∧
    ("5" ≠ "0" ∧ collectedCredit 7 (some "5") = none) ∧
    (collectedCredit 9 (some "25") = none ∧
      winStepE [("P", 0)] (.collected "P" 9 (some "25")) = .ok [("P", 0)]) ∧
    (dGet [("P", (0 : Int))] "P" = some 0 ∧
      winStepE [("P", 0)] (.collected "P" 9 none) =
        .ok (dSet [("P", 0)] "P" (0 + (9 : Int)))) :=
  ⟨C9_amended.1 7, C9_amended.2.1 7,
   ⟨by decide, C9_amended.2.2.1 7 "5" (by decide)⟩,
   ⟨rfl, C9_amended.2.2.2.1 [("P", 0)] "P" 9 (some "25") rfl⟩,
   ⟨rfl, C9_amended.2.2.2.2 [("P", 0)] "P" 9 none 0 9 rfl rfl⟩⟩

/-- C10: no input line ever sets the ante, so every parsed hand has
ante 0 and the serialized antes array is a list of zeros with exactly
one entry per seated player. -/
theorem C10_antes_zero (lines : List Line) :
    (parseHand lines).ante = 0 ∧
    antesOf (parseHand lines) = List.replicate (parseHand lines).players.length 0 := by
  refine ⟨parseHand_ante lines, ?_⟩
  simp only [antesOf, parseHand_ante]
  exact List.map_const' _ _

end PokerHH
